import Mathlib

/-!
Shallow embedding of the course-catalog filter script (src/script.js).

Strings are modelled as lists of characters (`List Char`), one entry per
UTF-16 code unit of the JavaScript string; all functions below are direct
translations of the corresponding JavaScript functions.

Modelling notes, recorded once here:
* `String.prototype.toLowerCase` is modelled on the Basic Latin range
  (code points 65..90 map to 97..122, everything else is fixed).  The
  regular expression `[^a-z0-9\s]` in `normalizeText` removes every
  character that such lowering could have changed outside that range, so
  the composition `normalizeText` agrees with the script for all inputs
  made of characters whose lowercase forms are the usual ones.
* The JavaScript whitespace class `\s` (also used by `String.trim`) is
  the explicit code-point set in `isSpaceJS`.
* `Math.floor(len * 0.2)` is modelled as `len / 5` on naturals: the IEEE
  double nearest to 0.2 is slightly above 1/5, and for every length `n`
  representable in a string the rounded product `n * 0.2` lies in
  `[n / 5, n / 5 + 1)`, so the floors coincide.
* `String.prototype.localeCompare` is modelled as code-unit
  lexicographic comparison, and `Array.prototype.sort` as a comparator
  sort producing an output ordered by that comparator (insertion sort
  here); the ECMAScript contract only fixes the ordering of the output.
-/

/-- Code points matched by the JavaScript regular expression class `\s`
(also the set trimmed by `String.prototype.trim`). -/
def isSpaceJS (c : Char) : Bool :=
  decide (c.toNat = 32) || decide (9 ≤ c.toNat ∧ c.toNat ≤ 13) ||
  decide (c.toNat = 0xa0) || decide (c.toNat = 0x1680) ||
  decide (0x2000 ≤ c.toNat ∧ c.toNat ≤ 0x200a) ||
  decide (c.toNat = 0x2028) || decide (c.toNat = 0x2029) ||
  decide (c.toNat = 0x202f) || decide (c.toNat = 0x205f) ||
  decide (c.toNat = 0x3000) || decide (c.toNat = 0xfeff)

/-- Characters kept by `value.replace(/[^a-z0-9\s]/g, "")`:
lowercase ASCII letters (97..122), ASCII digits (48..57), and JavaScript
whitespace. -/
def isKept (c : Char) : Bool :=
  decide (97 ≤ c.toNat ∧ c.toNat ≤ 122) ||
  decide (48 ≤ c.toNat ∧ c.toNat ≤ 57) ||
  isSpaceJS c

/-- ASCII lowering: model of `String.prototype.toLowerCase` (see the
module comment). -/
def jsToLower (c : Char) : Char :=
  if 65 ≤ c.toNat ∧ c.toNat ≤ 90 then Char.ofNat (c.toNat + 32) else c

/-- Model of `String.prototype.trim`: remove leading and trailing
JavaScript whitespace. -/
def trimJS (l : List Char) : List Char :=
  ((l.dropWhile isSpaceJS).reverse.dropWhile isSpaceJS).reverse

/-- `normalizeText` from src/script.js, lines 114..115:
`value.toLowerCase().replace(/[^a-z0-9\s]/g, "").trim()`. -/
def normalizeText (value : List Char) : List Char :=
  trimJS ((value.map jsToLower).filter isKept)

/-- Model of `hay.includes(needle)` for JavaScript strings: `needle`
occurs contiguously somewhere in `hay` (the empty needle always
occurs). -/
def jsIncludes (hay needle : List Char) : Bool :=
  match hay with
  | [] => needle.isEmpty
  | _ :: t => needle.isPrefixOf hay || jsIncludes t needle

/-- Helper: `dropWhile` never lengthens a list. -/
theorem dropWhile_length_le {α : Type} (p : α → Bool) :
    ∀ l : List α, (List.dropWhile p l).length ≤ l.length := by
  intro l
  induction l with
  | nil => simp
  | cons a t ih =>
    rw [List.dropWhile_cons]
    by_cases h : p a = true
    · simp only [h, if_true]
      exact Nat.le_succ_of_le ih
    · simp only [h]
      simp

/-- Model of `normalizedText.split(/\s+/)`: accumulate the current chunk
and flush it when a maximal whitespace run starts (the Boolean records
whether the previous character was part of such a run).  As in
JavaScript, the empty string splits to one empty chunk, and leading or
trailing whitespace produces an empty first or last chunk. -/
def splitWsGo : List Char → List Char → Bool → List (List Char)
  | [], cur, _ => [cur.reverse]
  | c :: rest, cur, inRun =>
    if isSpaceJS c then
      if inRun then
        splitWsGo rest [] true
      else
        cur.reverse :: splitWsGo rest [] true
    else
      splitWsGo rest (c :: cur) false

/-- The word list used by `matchesWithTolerance`. -/
def splitWs (l : List Char) : List (List Char) :=
  splitWsGo l [] false

/-- The dynamic-programming table of `getEditDistance`
(src/script.js, lines 126..147): `dp s c i j` is the value the script
stores in `matrix[i][j]`, i.e. the cell computed from the first `i`
characters of `s` and the first `j` characters of `c`. -/
def dp (s c : List Char) : Nat → Nat → Nat
  | 0, j => j
  | i + 1, 0 => i + 1
  | i + 1, j + 1 =>
    min (min (dp s c i (j + 1) + 1) (dp s c (i + 1) j + 1))
      (dp s c i j + (if s.getD i ' ' = c.getD j ' ' then 0 else 1))
termination_by i j => (i, j)

/-- `getEditDistance` from src/script.js, lines 118..150.  Both inputs
are normalized first; if either normalization is empty the script
returns the larger length, otherwise the bottom-right cell of the
dynamic-programming table. -/
def getEditDistance (value target : List Char) : Nat :=
  let source := normalizeText value
  let comparison := normalizeText target
  if source.isEmpty || comparison.isEmpty then
    max source.length comparison.length
  else
    dp source comparison source.length comparison.length

/-- The classic recursive Levenshtein distance: minimum number of
single-character insertions, deletions, or substitutions transforming
the first list into the second.  This is the specification-side
definition that `getEditDistance` is compared against. -/
def levClassic : List Char → List Char → Nat
  | [], ys => ys.length
  | x :: xs, [] => (x :: xs).length
  | x :: xs, y :: ys =>
    min (min (levClassic xs (y :: ys) + 1) (levClassic (x :: xs) ys + 1))
      (levClassic xs ys + (if x = y then 0 else 1))
termination_by a b => (a, b)

/-- `matchesWithTolerance` from src/script.js, lines 153..172. -/
def matchesWithTolerance (query text : List Char) : Bool :=
  if query.isEmpty then
    true
  else
    let normalizedQuery := normalizeText query
    let normalizedText := normalizeText text
    if jsIncludes normalizedText normalizedQuery then
      true
    else
      let words := splitWs normalizedText
      let maxDistance := max 2 (normalizedQuery.length / 5)
      decide (getEditDistance normalizedQuery normalizedText ≤ maxDistance) ||
        words.any (fun word => decide (getEditDistance normalizedQuery word ≤ maxDistance))

/-- Distance to the empty list is the length. -/
theorem levClassic_nil_right : ∀ l : List Char, levClassic l [] = l.length := by
  intro l
  cases l <;> simp [levClassic]

/-- Helper: addition distributes over minimum on naturals. -/
theorem min_add_dist (a b c : Nat) : min a b + c = min (a + c) (b + c) := by omega

/-- Recurrence of the classic distance when one character is appended at
the end of each list; this mirrors one step of the prefix-indexed
dynamic-programming table.  The identity holds for arbitrary values of
the two substitution costs, so no case analysis on the characters is
needed. -/
theorem levClassic_snoc (x y : Char) :
    ∀ (xs ys : List Char),
      levClassic (xs ++ [x]) (ys ++ [y]) =
        min (min (levClassic xs (ys ++ [y]) + 1) (levClassic (xs ++ [x]) ys + 1))
          (levClassic xs ys + (if x = y then 0 else 1)) := by
  intro xs
  induction xs with
  | nil =>
    intro ys
    induction ys with
    | nil => simp [levClassic]
    | cons b ys ihy =>
      simp only [List.nil_append, List.cons_append, levClassic, levClassic_nil_right,
        List.length_append, List.length_cons, List.length_nil] at ihy ⊢
      rw [ihy]
      simp only [min_add_dist]
      apply Nat.le_antisymm <;> simp only [le_min_iff, min_le_iff] <;> omega
  | cons a xs ihx =>
    intro ys
    induction ys with
    | nil =>
      have h0 := ihx []
      simp only [List.cons_append, List.nil_append, levClassic, levClassic_nil_right,
        List.length_append, List.length_cons, List.length_nil] at h0 ⊢
      rw [h0]
      simp only [min_add_dist]
      apply Nat.le_antisymm <;> simp only [le_min_iff, min_le_iff] <;> omega
    | cons b ys ihy =>
      have hA := ihx (b :: ys)
      have hC := ihx ys
      simp only [List.cons_append, List.nil_append, levClassic] at hA hC ihy ⊢
      rw [hA, hC, ihy]
      clear hA hC ihy
      simp only [min_add_dist]
      apply Nat.le_antisymm <;> simp only [le_min_iff, min_le_iff] <;> omega

/-- The classic distance is invariant under reversing both lists. -/
theorem levClassic_reverse :
    ∀ (xs ys : List Char), levClassic xs.reverse ys.reverse = levClassic xs ys := by
  intro xs
  induction xs with
  | nil =>
    intro ys
    simp [levClassic, levClassic_nil_right]
  | cons x xs ihx =>
    intro ys
    induction ys with
    | nil =>
      simp [levClassic, levClassic_nil_right]
    | cons y ys ihy =>
      rw [List.reverse_cons, List.reverse_cons, levClassic_snoc]
      rw [← List.reverse_cons y ys, ihx (y :: ys)]
      rw [← List.reverse_cons x xs, ihy, ihx ys]
      simp [levClassic]

/-- The classic distance is symmetric. -/
theorem levClassic_symm : ∀ (xs ys : List Char), levClassic xs ys = levClassic ys xs := by
  intro xs
  induction xs with
  | nil =>
    intro ys
    simp [levClassic, levClassic_nil_right]
  | cons x xs ihx =>
    intro ys
    induction ys with
    | nil => simp [levClassic, levClassic_nil_right]
    | cons y ys ihy =>
      simp only [levClassic]
      rw [ihx (y :: ys), ihy, ihx ys]
      by_cases hxy : x = y
      · subst hxy
        simp only [if_pos rfl]
        omega
      · have hyx : ¬ y = x := fun h => hxy h.symm
        rw [if_neg hxy, if_neg hyx]
        omega

/-- Every cell of the dynamic-programming table holds the classic
distance of the corresponding reversed prefixes. -/
theorem dp_eq_levClassic (s c : List Char) :
    ∀ i j, i ≤ s.length → j ≤ c.length →
      dp s c i j = levClassic ((s.take i).reverse) ((c.take j).reverse) := by
  intro i
  induction i with
  | zero =>
    intro j _ hj
    simp only [dp, List.take_zero, List.reverse_nil, levClassic, List.length_reverse,
      List.length_take]
    omega
  | succ i ihi =>
    intro j
    induction j with
    | zero =>
      intro hi _
      simp only [dp, List.take_zero, List.reverse_nil, levClassic_nil_right,
        List.length_reverse, List.length_take]
      omega
    | succ j ihj =>
      intro hi hj
      have hi' : i < s.length := hi
      have hj' : j < c.length := hj
      have hs : (s.take (i + 1)).reverse = s.getD i ' ' :: (s.take i).reverse := by
        rw [List.take_succ]
        simp [List.getElem?_eq_getElem hi', List.getD_eq_getElem?_getD,
          List.getElem?_eq_getElem hi']
      have hc : (c.take (j + 1)).reverse = c.getD j ' ' :: (c.take j).reverse := by
        rw [List.take_succ]
        simp [List.getElem?_eq_getElem hj', List.getD_eq_getElem?_getD,
          List.getElem?_eq_getElem hj']
      rw [hs, hc]
      simp only [levClassic]
      rw [← hc, ← hs]
      simp only [dp]
      rw [ihi (j + 1) (Nat.le_of_lt hi') hj, ihj hi (Nat.le_of_lt hj'),
        ihi j (Nat.le_of_lt hi') (Nat.le_of_lt hj')]

/-- `getEditDistance` computes the classic Levenshtein distance of the
two normalized inputs. -/
theorem getEditDistance_eq (a b : List Char) :
    getEditDistance a b = levClassic (normalizeText a) (normalizeText b) := by
  unfold getEditDistance
  by_cases hs : (normalizeText a).isEmpty = true
  · have ha : normalizeText a = [] := by
      cases h : normalizeText a with
      | nil => rfl
      | cons z t => rw [h] at hs; simp [List.isEmpty] at hs
    simp [ha, levClassic]
  · by_cases hc : (normalizeText b).isEmpty = true
    · have hb : normalizeText b = [] := by
        cases h : normalizeText b with
        | nil => rfl
        | cons z t => rw [h] at hc; simp [List.isEmpty] at hc
      simp only [hb, List.isEmpty_nil, Bool.or_true, if_true, levClassic_nil_right,
        List.length_nil]
      omega
    · simp only [hs, hc, Bool.or_self, Bool.false_or, Bool.or_false, if_neg,
        Bool.false_eq_true, not_false_eq_true]
      rw [dp_eq_levClassic (normalizeText a) (normalizeText b) _ _ (Nat.le_refl _) (Nat.le_refl _)]
      rw [List.take_length, List.take_length, levClassic_reverse]

/-- Dropping a satisfied run twice is the same as dropping it once. -/
theorem dropWhile_dropWhile {α : Type} (p : α → Bool) :
    ∀ l : List α, List.dropWhile p (List.dropWhile p l) = List.dropWhile p l := by
  intro l
  induction l with
  | nil => rfl
  | cons a t ih =>
    by_cases h : p a = true <;> simp [List.dropWhile_cons, h, ih]

/-- A list is a satisfied run followed by its `dropWhile`. -/
theorem exists_append_dropWhile {α : Type} (p : α → Bool) :
    ∀ l : List α, ∃ t, l = t ++ List.dropWhile p l := by
  intro l
  induction l with
  | nil => exact ⟨[], rfl⟩
  | cons a t ih =>
    by_cases h : p a = true
    · obtain ⟨u, hu⟩ := ih
      refine ⟨a :: u, ?_⟩
      simp only [List.dropWhile_cons, h, if_true, List.cons_append]
      exact congrArg (List.cons a) hu
    · refine ⟨[], ?_⟩
      simp [List.dropWhile_cons, h]

/-- A list untouched by `dropWhile` has no satisfied head anywhere it is
split; in particular every prefix of it is untouched as well. -/
theorem dropWhile_eq_self_of_append {α : Type} (p : α → Bool) (m t v : List α)
    (hv : List.dropWhile p v = v) (hsplit : v = m ++ t) :
    List.dropWhile p m = m := by
  cases m with
  | nil => rfl
  | cons b m' =>
    have hb : p b = false := by
      by_cases h : p b = true
      · exfalso
        rw [hsplit, List.cons_append, List.dropWhile_cons] at hv
        simp only [h, if_true] at hv
        have h1 := dropWhile_length_le p (m' ++ t)
        have h2 := congrArg List.length hv
        simp only [List.length_cons] at h2
        omega
      · simp only [Bool.not_eq_true] at h
        exact h
    simp [List.dropWhile_cons, hb]

/-- Trimming is idempotent. -/
theorem trimJS_idem (l : List Char) : trimJS (trimJS l) = trimJS l := by
  unfold trimJS
  have hu : List.dropWhile isSpaceJS (l.dropWhile isSpaceJS) = l.dropWhile isSpaceJS :=
    dropWhile_dropWhile isSpaceJS l
  have hw : List.dropWhile isSpaceJS
      ((l.dropWhile isSpaceJS).reverse.dropWhile isSpaceJS) =
      (l.dropWhile isSpaceJS).reverse.dropWhile isSpaceJS :=
    dropWhile_dropWhile isSpaceJS (l.dropWhile isSpaceJS).reverse
  obtain ⟨t, ht⟩ := exists_append_dropWhile isSpaceJS (l.dropWhile isSpaceJS).reverse
  have hsplit : l.dropWhile isSpaceJS =
      ((l.dropWhile isSpaceJS).reverse.dropWhile isSpaceJS).reverse ++ t.reverse := by
    have := congrArg List.reverse ht
    simpa using this
  have hm : List.dropWhile isSpaceJS
      ((l.dropWhile isSpaceJS).reverse.dropWhile isSpaceJS).reverse =
      ((l.dropWhile isSpaceJS).reverse.dropWhile isSpaceJS).reverse :=
    dropWhile_eq_self_of_append isSpaceJS _ t.reverse _ hu hsplit
  rw [hm, List.reverse_reverse, hw]

/-- Membership in a `dropWhile` implies membership in the list. -/
theorem mem_dropWhile {α : Type} (p : α → Bool) (a : α) (l : List α)
    (h : a ∈ List.dropWhile p l) : a ∈ l := by
  obtain ⟨t, ht⟩ := exists_append_dropWhile p l
  rw [ht]
  exact List.mem_append_right t h

/-- Membership in a trimmed list implies membership in the list. -/
theorem mem_trimJS (a : Char) (l : List Char) (h : a ∈ trimJS l) : a ∈ l := by
  unfold trimJS at h
  rw [List.mem_reverse] at h
  have h1 := mem_dropWhile _ _ _ h
  rw [List.mem_reverse] at h1
  exact mem_dropWhile _ _ _ h1

/-- Every character of a normalized string is a kept character. -/
theorem mem_normalizeText_kept (a : Char) (v : List Char) (h : a ∈ normalizeText v) :
    isKept a = true := by
  unfold normalizeText at h
  have h1 := mem_trimJS _ _ h
  exact (List.mem_filter.mp h1).2

/-- Kept characters are fixed by the lowering map: their code points lie
outside 65..90. -/
theorem jsToLower_of_isKept (c : Char) (h : isKept c = true) : jsToLower c = c := by
  unfold jsToLower
  rw [if_neg]
  intro hc
  unfold isKept isSpaceJS at h
  simp only [Bool.or_eq_true, decide_eq_true_eq] at h
  omega

/-- Normalization is idempotent. -/
theorem normalizeText_idem (v : List Char) :
    normalizeText (normalizeText v) = normalizeText v := by
  have hlow : ∀ a ∈ normalizeText v, jsToLower a = a :=
    fun a ha => jsToLower_of_isKept a (mem_normalizeText_kept a v ha)
  have hmap : (normalizeText v).map jsToLower = normalizeText v := by
    rw [List.map_congr_left hlow]
    exact List.map_id _
  have hfil : List.filter isKept (normalizeText v) = normalizeText v :=
    List.filter_eq_self.mpr fun a ha => mem_normalizeText_kept a v ha
  show trimJS (((normalizeText v).map jsToLower).filter isKept) = normalizeText v
  rw [hmap, hfil]
  show trimJS (trimJS ((v.map jsToLower).filter isKept)) = normalizeText v
  rw [trimJS_idem]
  rfl

/-- `getEditDistance` only depends on the normalizations of its inputs. -/
theorem getEditDistance_norm (a b : List Char) :
    getEditDistance (normalizeText a) (normalizeText b) = getEditDistance a b := by
  rw [getEditDistance_eq, getEditDistance_eq, normalizeText_idem, normalizeText_idem]

/-- The empty needle is contained in every haystack. -/
theorem jsIncludes_nil (hay : List Char) : jsIncludes hay [] = true := by
  cases hay <;> simp [jsIncludes, List.isPrefixOf, List.isEmpty]

/-- The classic recursive distance agrees with the Mathlib fold-based
Levenshtein distance at unit costs; the latter is structurally recursive
and therefore lets the kernel evaluate concrete distances. -/
theorem levClassic_eq_levenshtein :
    ∀ xs ys : List Char, levClassic xs ys = levenshtein Levenshtein.defaultCost xs ys := by
  intro xs
  induction xs with
  | nil =>
    intro ys
    induction ys with
    | nil => simp [levClassic, levenshtein_nil_nil]
    | cons y ys ihy =>
      rw [levenshtein_nil_cons]
      simp only [levClassic] at ihy ⊢
      rw [← ihy]
      simp only [Levenshtein.defaultCost_insert, List.length_cons]
      omega
  | cons x xs ihx =>
    intro ys
    induction ys with
    | nil =>
      rw [levenshtein_cons_nil]
      rw [← ihx []]
      simp only [levClassic_nil_right, Levenshtein.defaultCost_delete, List.length_cons]
      omega
    | cons y ys ihy =>
      rw [levenshtein_cons_cons, ← ihx (y :: ys), ← ihy, ← ihx ys]
      simp only [levClassic, Levenshtein.defaultCost_delete, Levenshtein.defaultCost_insert,
        Levenshtein.defaultCost_substitute]
      omega

/-- `getEditDistance` is unchanged by pre-normalizing its first input. -/
theorem getEditDistance_norm_left (a b : List Char) :
    getEditDistance (normalizeText a) b = getEditDistance a b := by
  rw [getEditDistance_eq, getEditDistance_eq, normalizeText_idem]

/-- `getEditDistance` is unchanged by pre-normalizing its second input. -/
theorem getEditDistance_norm_right (a b : List Char) :
    getEditDistance a (normalizeText b) = getEditDistance a b := by
  rw [getEditDistance_eq, getEditDistance_eq, normalizeText_idem]

/-- Unfolding of `matchesWithTolerance` for a non-empty query. -/
theorem matchesWithTolerance_eq (query text : List Char) (hq : query.isEmpty = false) :
    matchesWithTolerance query text =
      (jsIncludes (normalizeText text) (normalizeText query) ||
       (decide (getEditDistance (normalizeText query) (normalizeText text) ≤
          max 2 ((normalizeText query).length / 5)) ||
        (splitWs (normalizeText text)).any (fun word =>
          decide (getEditDistance (normalizeText query) word ≤
            max 2 ((normalizeText query).length / 5))))) := by
  unfold matchesWithTolerance
  rw [hq]
  simp only [Bool.false_eq_true, if_false]
  by_cases hinc : jsIncludes (normalizeText text) (normalizeText query) = true
  · simp [hinc]
  · simp only [Bool.not_eq_true] at hinc
    simp [hinc]

/-- Claim C1: for any query and candidate text, if the normalized text
contains the normalized query as a substring then `matchesWithTolerance`
returns true; otherwise, with threshold `max 2 (floor (0.2 * length of
the normalized query))`, it returns true exactly when the edit distance
between the query and the whole text is within the threshold, or the
edit distance between the query and some whitespace-delimited word of
the normalized text is within the threshold. -/
theorem matchesWithTolerance_spec (query text : List Char) :
    (jsIncludes (normalizeText text) (normalizeText query) = true →
      matchesWithTolerance query text = true) ∧
    (jsIncludes (normalizeText text) (normalizeText query) = false →
      (matchesWithTolerance query text = true ↔
        getEditDistance query text ≤ max 2 ((normalizeText query).length / 5) ∨
        ∃ w ∈ splitWs (normalizeText text),
          getEditDistance query w ≤ max 2 ((normalizeText query).length / 5))) := by
  constructor
  · intro hinc
    by_cases hq : query.isEmpty = true
    · unfold matchesWithTolerance
      rw [if_pos hq]
    · have hq' : query.isEmpty = false := by
        cases h : query.isEmpty
        · rfl
        · exact absurd h hq
      rw [matchesWithTolerance_eq query text hq', hinc]
      rfl
  · intro hinc
    by_cases hq : query.isEmpty = true
    · exfalso
      have hq2 : query = [] := by
        cases query with
        | nil => rfl
        | cons z t => simp [List.isEmpty] at hq
      subst hq2
      rw [show normalizeText [] = ([] : List Char) from rfl, jsIncludes_nil] at hinc
      cases hinc
    · have hq' : query.isEmpty = false := by
        cases h : query.isEmpty
        · rfl
        · exact absurd h hq
      rw [matchesWithTolerance_eq query text hq', hinc]
      simp only [Bool.false_or, Bool.or_eq_true, decide_eq_true_eq, List.any_eq_true,
        getEditDistance_norm_left, getEditDistance_norm_right]

/-- Witness for claim C1, at the query "ab" against the text "ba": the
containment test fails, and the matcher succeeds through the
edit-distance fallback (distance 2, threshold 2). -/
theorem matchesWithTolerance_spec_app :
    jsIncludes (normalizeText (("ba").toList)) (normalizeText (("ab").toList)) = false ∧
    matchesWithTolerance (("ab").toList) (("ba").toList) = true :=
  ⟨by decide,
   ((matchesWithTolerance_spec (("ab").toList) (("ba").toList)).2 (by decide)).mpr
     (Or.inl (by rw [getEditDistance_eq, levClassic_eq_levenshtein]; decide))⟩

/-- Claim C2: on inputs fixed by normalization, `getEditDistance` is the
classic Levenshtein distance; if either input is empty the result is the
length of the other; and the distance from kitten to sitting is 3. -/
theorem getEditDistance_levenshtein_spec (a b : List Char)
    (ha : normalizeText a = a) (hb : normalizeText b = b) :
    getEditDistance a b = levClassic a b ∧
    (a = [] → getEditDistance a b = b.length) ∧
    (b = [] → getEditDistance a b = a.length) ∧
    getEditDistance (("kitten").toList) (("sitting").toList) = 3 := by
  have hmain : getEditDistance a b = levClassic a b := by
    rw [getEditDistance_eq, ha, hb]
  refine ⟨hmain, ?_, ?_, ?_⟩
  · intro h
    subst h
    rw [hmain]
    simp [levClassic]
  · intro h
    subst h
    rw [hmain, levClassic_nil_right]
  · rw [getEditDistance_eq, levClassic_eq_levenshtein]
    decide

/-- Witness for claim C2, at the normalized inputs kitten and
sitting. -/
theorem getEditDistance_levenshtein_spec_app :
    getEditDistance (("kitten").toList) (("sitting").toList) =
      levClassic (("kitten").toList) (("sitting").toList) ∧
    getEditDistance (("kitten").toList) (("sitting").toList) = 3 :=
  ⟨(getEditDistance_levenshtein_spec (("kitten").toList) (("sitting").toList)
      (by decide) (by decide)).1,
   (getEditDistance_levenshtein_spec (("kitten").toList) (("sitting").toList)
      (by decide) (by decide)).2.2.2⟩

/-- Claim C8: the matcher accepts every text when the query is the empty
string. -/
theorem matchesWithTolerance_empty (text : List Char) :
    matchesWithTolerance [] text = true := rfl

/-- Claim C9: `getEditDistance` is symmetric in its two arguments. -/
theorem getEditDistance_symm (a b : List Char) :
    getEditDistance a b = getEditDistance b a := by
  rw [getEditDistance_eq, getEditDistance_eq, levClassic_symm]

/-- Claim C10: a non-empty query whose normalization is empty matches
every text, because the empty normalized query is contained in every
normalized text. -/
theorem matchesWithTolerance_blank_query (query text : List Char)
    (hq : query ≠ []) (hn : normalizeText query = []) :
    matchesWithTolerance query text = true := by
  have hq' : query.isEmpty = false := by
    cases query with
    | nil => exact absurd rfl hq
    | cons z t => rfl
  rw [matchesWithTolerance_eq query text hq', hn, jsIncludes_nil]
  rfl

/-- Witness for claim C10, at the query of three exclamation marks
(non-empty, but normalizing to the empty string) and the text "abc". -/
theorem matchesWithTolerance_blank_query_app :
    normalizeText (("!!!").toList) = [] ∧
    matchesWithTolerance (("!!!").toList) (("abc").toList) = true :=
  ⟨by decide,
   matchesWithTolerance_blank_query (("!!!").toList) (("abc").toList)
     (by decide) (by decide)⟩

/-- A course record as built by the loader from one data row; all nine
fields are strings (duration already carries the " years" suffix added
at parse time). -/
structure Course where
  courseName : List Char
  universityName : List Char
  universityType : List Char
  degreeType : List Char
  duration : List Char
  language : List Char
  courseCode : List Char
  courseArea : List Char
  website : List Char

/-- The five user inputs read by the filter and render pipeline. -/
structure FilterState where
  universitySearch : List Char
  courseAreaSearch : List Char
  courseSearch : List Char
  degreeFilter : List Char
  sortFilter : List Char

/-- Code-unit lexicographic comparison of strings, the model of the
ordering induced by `localeCompare` (see the module comment). -/
def lexLe : List Char → List Char → Bool
  | [], _ => true
  | _ :: _, [] => false
  | a :: as, b :: bs =>
    if a.toNat < b.toNat then true
    else if b.toNat < a.toNat then false
    else lexLe as bs

/-- Insert an element into a comparator-sorted list, after every element
the comparator places no later than it. -/
def insertSorted {α : Type} (le : α → α → Bool) (x : α) : List α → List α
  | [] => [x]
  | y :: ys => if le y x then y :: insertSorted le x ys else x :: y :: ys

/-- Comparator sort (insertion sort), the model of
`Array.prototype.sort` with a comparator: the ECMAScript contract only
requires the output to be ordered by the comparator. -/
def sortBy {α : Type} (le : α → α → Bool) (l : List α) : List α :=
  l.foldl (fun acc x => insertSorted le x acc) []

/-- Elements of an insertion are the inserted element or old elements. -/
theorem mem_insertSorted {α : Type} (le : α → α → Bool) (x a : α) :
    ∀ l : List α, a ∈ insertSorted le x l → a = x ∨ a ∈ l := by
  intro l
  induction l with
  | nil =>
    intro h
    simp only [insertSorted, List.mem_singleton] at h
    exact Or.inl h
  | cons y ys ih =>
    intro h
    simp only [insertSorted] at h
    by_cases hle : le y x = true
    · rw [if_pos hle] at h
      rcases List.mem_cons.mp h with h1 | h2
      · exact Or.inr (by simp [h1])
      · rcases ih h2 with h3 | h4
        · exact Or.inl h3
        · exact Or.inr (List.mem_cons_of_mem _ h4)
    · rw [if_neg hle] at h
      rcases List.mem_cons.mp h with h1 | h2
      · exact Or.inl h1
      · exact Or.inr h2

/-- Insertion preserves comparator sortedness, for a total transitive
comparator. -/
theorem sorted_insertSorted {α : Type} (le : α → α → Bool)
    (htot : ∀ a b, le a b = true ∨ le b a = true)
    (htrans : ∀ a b c, le a b = true → le b c = true → le a c = true)
    (x : α) :
    ∀ l : List α, List.Pairwise (fun a b => le a b = true) l →
      List.Pairwise (fun a b => le a b = true) (insertSorted le x l) := by
  intro l
  induction l with
  | nil =>
    intro _
    simp [insertSorted]
  | cons y ys ih =>
    intro h
    rcases List.pairwise_cons.mp h with ⟨hy, hys⟩
    simp only [insertSorted]
    by_cases hle : le y x = true
    · rw [if_pos hle]
      refine List.pairwise_cons.mpr ⟨?_, ih hys⟩
      intro a ha
      rcases mem_insertSorted le x a ys ha with h1 | h2
      · rw [h1]
        exact hle
      · exact hy a h2
    · rw [if_neg hle]
      have hxy : le x y = true := by
        rcases htot x y with h1 | h1
        · exact h1
        · exact absurd h1 hle
      refine List.pairwise_cons.mpr ⟨?_, h⟩
      intro a ha
      rcases List.mem_cons.mp ha with h1 | h2
      · rw [h1]
        exact hxy
      · exact htrans x y a hxy (hy a h2)

/-- The comparator sort produces a comparator-sorted list, for a total
transitive comparator. -/
theorem sorted_sortBy {α : Type} (le : α → α → Bool)
    (htot : ∀ a b, le a b = true ∨ le b a = true)
    (htrans : ∀ a b c, le a b = true → le b c = true → le a c = true)
    (l : List α) :
    List.Pairwise (fun a b => le a b = true) (sortBy le l) := by
  suffices h : ∀ acc, List.Pairwise (fun a b => le a b = true) acc →
      List.Pairwise (fun a b => le a b = true)
        (l.foldl (fun acc x => insertSorted le x acc) acc) by
    exact h [] List.Pairwise.nil
  induction l with
  | nil =>
    intro acc hacc
    exact hacc
  | cons x xs ih =>
    intro acc hacc
    exact ih _ (sorted_insertSorted le htot htrans x acc hacc)

/-- The lexicographic comparison is total. -/
theorem lexLe_total : ∀ xs ys : List Char, lexLe xs ys = true ∨ lexLe ys xs = true := by
  intro xs
  induction xs with
  | nil =>
    intro ys
    exact Or.inl rfl
  | cons a as ih =>
    intro ys
    cases ys with
    | nil => exact Or.inr rfl
    | cons b bs =>
      simp only [lexLe]
      rcases Nat.lt_trichotomy a.toNat b.toNat with h | h | h
      · left
        rw [if_pos h]
      · have h1 : ¬ a.toNat < b.toNat := by omega
        have h2 : ¬ b.toNat < a.toNat := by omega
        rw [if_neg h1, if_neg h2, if_neg h2, if_neg h1]
        exact ih bs
      · right
        rw [if_pos h]

/-- The lexicographic comparison is transitive. -/
theorem lexLe_trans : ∀ xs ys zs : List Char,
    lexLe xs ys = true → lexLe ys zs = true → lexLe xs zs = true := by
  intro xs
  induction xs with
  | nil =>
    intro ys zs _ _
    rfl
  | cons a as ih =>
    intro ys zs h1 h2
    cases ys with
    | nil => simp [lexLe] at h1
    | cons b bs =>
      cases zs with
      | nil => simp [lexLe] at h2
      | cons c cs =>
        simp only [lexLe] at h1 h2 ⊢
        rcases Nat.lt_trichotomy a.toNat b.toNat with hab | hab | hab
        · rcases Nat.lt_trichotomy b.toNat c.toNat with hbc | hbc | hbc
          · rw [if_pos (by omega : a.toNat < c.toNat)]
          · rw [if_pos (by omega : a.toNat < c.toNat)]
          · rw [if_neg (by omega : ¬ b.toNat < c.toNat), if_pos hbc] at h2
            exact absurd h2 (by decide)
        · rw [if_neg (by omega : ¬ a.toNat < b.toNat),
            if_neg (by omega : ¬ b.toNat < a.toNat)] at h1
          rcases Nat.lt_trichotomy b.toNat c.toNat with hbc | hbc | hbc
          · rw [if_pos (by omega : a.toNat < c.toNat)]
          · rw [if_neg (by omega : ¬ b.toNat < c.toNat),
              if_neg (by omega : ¬ c.toNat < b.toNat)] at h2
            rw [if_neg (by omega : ¬ a.toNat < c.toNat),
              if_neg (by omega : ¬ c.toNat < a.toNat)]
            exact ih bs cs h1 h2
          · rw [if_neg (by omega : ¬ b.toNat < c.toNat), if_pos hbc] at h2
            exact absurd h2 (by decide)
        · rw [if_neg (by omega : ¬ a.toNat < b.toNat), if_pos hab] at h1
          exact absurd h1 (by decide)

/-- `getFilteredCourses` from src/script.js, lines 175..212: the three
text inputs are trimmed and lowercased, the record list is filtered by
the conjunction of the four predicates, and the result is sorted when a
sort key is selected. -/
def getFilteredCourses (st : FilterState) (courses : List Course) : List Course :=
  let universityQuery := (trimJS st.universitySearch).map jsToLower
  let courseAreaQuery := (trimJS st.courseAreaSearch).map jsToLower
  let courseQuery := (trimJS st.courseSearch).map jsToLower
  let degreeQuery := st.degreeFilter
  let filtered := courses.filter (fun course =>
    (if universityQuery.isEmpty then true
     else jsIncludes (course.universityName.map jsToLower) universityQuery) &&
    (if courseAreaQuery.isEmpty then true
     else jsIncludes (course.courseArea.map jsToLower) courseAreaQuery) &&
    matchesWithTolerance courseQuery course.courseName &&
    (if degreeQuery.isEmpty then true
     else course.degreeType == degreeQuery))
  if st.sortFilter = ("university").toList then
    sortBy (fun a b => lexLe a.universityName b.universityName) filtered
  else if st.sortFilter = ("degree").toList then
    sortBy (fun a b => lexLe a.degreeType b.degreeType) filtered
  else
    filtered

/-- Observable output of `renderCourses`: the records rendered into the
grid, the number shown in the results count, and whether the empty-state
indicator is hidden. -/
structure RenderOutput where
  visible : List Course
  reportedCount : Nat
  emptyStateHidden : Bool

/-- `renderCourses` from src/script.js, lines 215..258: in the initial
state (all five inputs blank, the text inputs up to whitespace) only the
first 10 filtered records are rendered, while the reported count is
always the full filtered length. -/
def renderCourses (st : FilterState) (courses : List Course) : RenderOutput :=
  let isInitialState :=
    (trimJS st.universitySearch).isEmpty &&
    (trimJS st.courseAreaSearch).isEmpty &&
    (trimJS st.courseSearch).isEmpty &&
    st.degreeFilter.isEmpty &&
    st.sortFilter.isEmpty
  let filteredCourses := getFilteredCourses st courses
  let visibleCourses := if isInitialState then filteredCourses.take 10 else filteredCourses
  { visible := visibleCourses
    reportedCount := filteredCourses.length
    emptyStateHidden := filteredCourses.length != 0 }

/-- With every input blank, the filter keeps every record: each of the
four predicates is trivially true. -/
theorem getFilteredCourses_all (st : FilterState) (courses : List Course)
    (h1 : trimJS st.universitySearch = []) (h2 : trimJS st.courseAreaSearch = [])
    (h3 : trimJS st.courseSearch = []) (h4 : st.degreeFilter = [])
    (h5 : st.sortFilter = []) :
    getFilteredCourses st courses = courses := by
  unfold getFilteredCourses
  rw [h1, h2, h3, h4, h5]
  rw [if_neg (by decide : ¬ ([] : List Char) = ("university").toList),
    if_neg (by decide : ¬ ([] : List Char) = ("degree").toList)]
  apply List.filter_eq_self.mpr
  intro a _
  simp [matchesWithTolerance]

/-- Claim C4: in the initial state (no filter or sort control set) the
displayed set is exactly the first 10 records of the unfiltered
collection in dataset order, while the reported count is the total
number of records. -/
theorem renderCourses_initial (st : FilterState) (courses : List Course)
    (h1 : trimJS st.universitySearch = []) (h2 : trimJS st.courseAreaSearch = [])
    (h3 : trimJS st.courseSearch = []) (h4 : st.degreeFilter = [])
    (h5 : st.sortFilter = []) :
    (renderCourses st courses).visible = courses.take 10 ∧
    (renderCourses st courses).reportedCount = courses.length := by
  have hfil := getFilteredCourses_all st courses h1 h2 h3 h4 h5
  refine ⟨?_, ?_⟩ <;>
    simp [renderCourses, h1, h2, h3, h4, h5, hfil]

/-- A sample record whose every field is the given tag, used by witness
statements. -/
def sampleCourse (tag : List Char) : Course :=
  { courseName := tag
    universityName := tag
    universityType := tag
    degreeType := tag
    duration := tag
    language := tag
    courseCode := tag
    courseArea := tag
    website := tag }

/-- A small sample collection used by witness statements. -/
def sampleCourses : List Course :=
  [sampleCourse (("msc").toList), sampleCourse (("bsc").toList),
   sampleCourse (("phd").toList)]

/-- Witness for claim C4, at the blank filter state over a collection of
twelve records. -/
theorem renderCourses_initial_app :
    (renderCourses ⟨[], [], [], [], []⟩
        (List.replicate 12 (sampleCourse (("x").toList)))).visible =
      (List.replicate 12 (sampleCourse (("x").toList))).take 10 ∧
    (renderCourses ⟨[], [], [], [], []⟩
        (List.replicate 12 (sampleCourse (("x").toList)))).reportedCount =
      (List.replicate 12 (sampleCourse (("x").toList))).length :=
  renderCourses_initial _ _ rfl rfl rfl rfl rfl

/-- Claim C5: with only a degree-type value set, the result is exactly
the records whose degreeType equals that value, kept in collection
order. -/
theorem getFilteredCourses_degree (d : List Char) (courses : List Course) (hd : d ≠ []) :
    getFilteredCourses ⟨[], [], [], d, []⟩ courses =
      courses.filter (fun c => c.degreeType == d) := by
  have hde : d.isEmpty = false := by
    cases d with
    | nil => exact absurd rfl hd
    | cons z t => rfl
  unfold getFilteredCourses
  rw [if_neg (by decide : ¬ ([] : List Char) = ("university").toList),
    if_neg (by decide : ¬ ([] : List Char) = ("degree").toList)]
  apply List.filter_congr
  intro a _
  simp [matchesWithTolerance, hde, trimJS]

/-- Witness for claim C5, filtering the sample collection by the degree
type bsc. -/
theorem getFilteredCourses_degree_app :
    getFilteredCourses ⟨[], [], [], ("bsc").toList, []⟩ sampleCourses =
      sampleCourses.filter (fun c => c.degreeType == ("bsc").toList) :=
  getFilteredCourses_degree (("bsc").toList) sampleCourses (by decide)

/-- Claim C6: with the university sort key the result is in
non-decreasing lexicographic order of universityName, and with no sort
key the filtered records keep their collection order (the result is a
sublist of the collection). -/
theorem getFilteredCourses_sort_spec (st : FilterState) (courses : List Course) :
    (st.sortFilter = ("university").toList →
      List.Pairwise (fun a b => lexLe a.universityName b.universityName = true)
        (getFilteredCourses st courses)) ∧
    (st.sortFilter = [] →
      List.Sublist (getFilteredCourses st courses) courses) := by
  constructor
  · intro hs
    unfold getFilteredCourses
    rw [hs, if_pos rfl]
    exact sorted_sortBy (fun a b : Course => lexLe a.universityName b.universityName)
      (fun a b => lexLe_total a.universityName b.universityName)
      (fun a b c hab hbc => lexLe_trans _ _ _ hab hbc)
      _
  · intro hs
    unfold getFilteredCourses
    rw [hs]
    rw [if_neg (by decide : ¬ ([] : List Char) = ("university").toList),
      if_neg (by decide : ¬ ([] : List Char) = ("degree").toList)]
    exact List.filter_sublist _

/-- Witness for claim C6, at the sample collection: once with the
university sort key, once with no sort key. -/
theorem getFilteredCourses_sort_spec_app :
    List.Pairwise (fun a b => lexLe a.universityName b.universityName = true)
      (getFilteredCourses ⟨[], [], [], [], ("university").toList⟩ sampleCourses) ∧
    List.Sublist (getFilteredCourses ⟨[], [], [], [], []⟩ sampleCourses) sampleCourses :=
  ⟨(getFilteredCourses_sort_spec ⟨[], [], [], [], ("university").toList⟩ sampleCourses).1 rfl,
   (getFilteredCourses_sort_spec ⟨[], [], [], [], []⟩ sampleCourses).2 rfl⟩

/-- The loop of `parseCSVLine` from src/script.js, lines 16..47.  The
checks are made in source order: a doubled quote appends one literal
quote and skips a character, a single quote toggles the quote flag, an
unquoted comma pushes the trimmed current field, anything else is
appended to the current field; at the end the trimmed current field is
pushed. -/
def parseCSVLineGo : List Char → Bool → List Char → List (List Char) → List (List Char)
  | [], _, current, values => values ++ [trimJS current]
  | '"' :: '"' :: rest, inQuotes, current, values =>
      parseCSVLineGo rest inQuotes (current ++ ['"']) values
  | '"' :: rest, inQuotes, current, values =>
      parseCSVLineGo rest (!inQuotes) current values
  | c :: rest, inQuotes, current, values =>
      if c = ',' ∧ inQuotes = false then
        parseCSVLineGo rest inQuotes [] (values ++ [trimJS current])
      else
        parseCSVLineGo rest inQuotes (current ++ [c]) values

/-- `parseCSVLine` from src/script.js: split one CSV line into its
trimmed field values, honouring quoting. -/
def parseCSVLine (line : List Char) : List (List Char) :=
  parseCSVLineGo line false [] []

/-- The loop of `csvText.split(/\r?\n/)`: cut at each newline,
optionally preceded by a carriage return; a lone carriage return is
ordinary text. -/
def splitLinesGo : List Char → List Char → List (List Char)
  | [], cur => [cur.reverse]
  | '\r' :: '\n' :: rest, cur => cur.reverse :: splitLinesGo rest []
  | '\n' :: rest, cur => cur.reverse :: splitLinesGo rest []
  | c :: rest, cur => splitLinesGo rest (c :: cur)

/-- Model of `csvText.split(/\r?\n/)`. -/
def splitLines (s : List Char) : List (List Char) :=
  splitLinesGo s []

/-- The row object built by `parseCSV` for one data line:
`headers.forEach((header, index) => row[header] = values[index] ?? "")`
assigns in header order, so on duplicate headers the last assignment
wins; looking up a key that no header equals gives `none` (the
JavaScript undefined). -/
def rowGet (headers values : List (List Char)) (key : List Char) : Option (List Char) :=
  headers.enum.foldl
    (fun acc hi => if hi.2 = key then some (values.getD hi.1 []) else acc)
    none

/-- A record as literally built by `parseCSV`: each field holds the row
value of its column when the header is present (with a missing value
defaulting to empty text), and is `none` (JavaScript undefined) when the
header is absent; the duration field comes from a template string and is
therefore always text, an undefined value rendering as the text
"undefined". -/
structure ParsedCourse where
  courseName : Option (List Char)
  universityName : Option (List Char)
  universityType : Option (List Char)
  degreeType : Option (List Char)
  duration : List Char
  language : Option (List Char)
  courseCode : Option (List Char)
  courseArea : Option (List Char)
  website : Option (List Char)

/-- `parseCSV` from src/script.js, lines 50..75: trim the text, split it
into lines, parse the first line as the header row, and build one record
from each remaining line. -/
def parseCSV (csvText : List Char) : List ParsedCourse :=
  let rows := splitLines (trimJS csvText)
  let headers := parseCSVLine (rows.headD [])
  rows.tail.map (fun line =>
    let values := parseCSVLine line
    { courseName := rowGet headers values (("Course Name").toList)
      universityName := rowGet headers values (("University").toList)
      universityType := rowGet headers values (("University Type").toList)
      degreeType := rowGet headers values (("Degree Type").toList)
      duration :=
        (match rowGet headers values (("Duration").toList) with
          | some v => v
          | none => ("undefined").toList) ++ (" years").toList
      language := rowGet headers values (("Language").toList)
      courseCode := rowGet headers values (("Course Code").toList)
      courseArea := rowGet headers values (("Course Area").toList)
      website := rowGet headers values (("Website").toList) })

/-- Claim C7: a quoted field with embedded commas and doubled-quote
escaping parses to one field holding the literal text, commas inside
quotes not splitting and doubled quotes yielding one literal quote. -/
theorem parseCSVLine_quoted :
    parseCSVLine (("\"Bio, Tech \"\"Plus\"\"\"").toList) =
      [("Bio, Tech \"Plus\"").toList] := by decide

/-- The nine column names of the documented input format, in file
order. -/
def standardHeaders : List (List Char) :=
  [("Course Name").toList, ("University").toList, ("University Type").toList,
   ("Degree Type").toList, ("Duration").toList, ("Language").toList,
   ("Course Code").toList, ("Course Area").toList, ("Website").toList]

/-- Row lookups under the standard header row: each column name selects
the value at its position, with a missing value defaulting to empty
text. -/
theorem rowGet_standard (values : List (List Char)) :
    rowGet standardHeaders values (("Course Name").toList) = some (values.getD 0 []) ∧
    rowGet standardHeaders values (("University").toList) = some (values.getD 1 []) ∧
    rowGet standardHeaders values (("University Type").toList) = some (values.getD 2 []) ∧
    rowGet standardHeaders values (("Degree Type").toList) = some (values.getD 3 []) ∧
    rowGet standardHeaders values (("Duration").toList) = some (values.getD 4 []) ∧
    rowGet standardHeaders values (("Language").toList) = some (values.getD 5 []) ∧
    rowGet standardHeaders values (("Course Code").toList) = some (values.getD 6 []) ∧
    rowGet standardHeaders values (("Course Area").toList) = some (values.getD 7 []) ∧
    rowGet standardHeaders values (("Website").toList) = some (values.getD 8 []) :=
  ⟨rfl, rfl, rfl, rfl, rfl, rfl, rfl, rfl, rfl⟩

/-- A sample dataset with the standard header row and one data line. -/
def exCSV : List Char :=
  ("Course Name,University,University Type,Degree Type,Duration,Language,Course Code,Course Area,Website" ++
   "\n" ++ "CS,UniX,Public,BSc,3,English,C1,Tech,site").toList

/-- The data line of the sample dataset. -/
def exLine : List Char :=
  ("CS,UniX,Public,BSc,3,English,C1,Tech,site").toList

/-- An all-empty record, used only as a fallback argument. -/
def emptyParsedCourse : ParsedCourse :=
  { courseName := none
    universityName := none
    universityType := none
    degreeType := none
    duration := []
    language := none
    courseCode := none
    courseArea := none
    website := none }

/-- Counterexample to claim C3 as stated: in the record built from the
sample dataset the duration field is the text "3 years", while the value
present in the source dataset after parsing is the text "3", so the
field values of a record are not all exactly the parsed source
values. -/
theorem parseCSV_duration_cex :
    ((parseCSV exCSV).headD emptyParsedCourse).duration = ("3 years").toList ∧
    (parseCSVLine exLine).getD 4 [] = ("3").toList ∧
    ("3 years").toList ≠ (("3").toList : List Char) :=
  ⟨by decide, by decide, by decide⟩

/-- Claim C3, amended: for a dataset whose header row parses to the nine
standard column names, the record count equals the number of data lines,
and every field of every record equals the whitespace-trimmed,
quote-aware parsed value of its column (a missing value defaulting to
empty text), except duration, which is that parsed value followed by the
text " years".  Records are plain values of the model, so they cannot
change after parsing. -/
theorem parseCSV_fields (csvText : List Char)
    (hh : parseCSVLine ((splitLines (trimJS csvText)).headD []) = standardHeaders) :
    (parseCSV csvText).length = (splitLines (trimJS csvText)).length - 1 ∧
    (∀ i rec, (parseCSV csvText).get? i = some rec →
      ∀ line, ((splitLines (trimJS csvText)).tail).get? i = some line →
        rec.courseName = some ((parseCSVLine line).getD 0 []) ∧
        rec.universityName = some ((parseCSVLine line).getD 1 []) ∧
        rec.universityType = some ((parseCSVLine line).getD 2 []) ∧
        rec.degreeType = some ((parseCSVLine line).getD 3 []) ∧
        rec.duration = (parseCSVLine line).getD 4 [] ++ (" years").toList ∧
        rec.language = some ((parseCSVLine line).getD 5 []) ∧
        rec.courseCode = some ((parseCSVLine line).getD 6 []) ∧
        rec.courseArea = some ((parseCSVLine line).getD 7 []) ∧
        rec.website = some ((parseCSVLine line).getD 8 [])) := by
  constructor
  · unfold parseCSV
    rw [List.length_map, List.length_tail]
  · intro i rec hrec line hline
    unfold parseCSV at hrec
    dsimp only [] at hrec
    rw [hh, List.get?_map, hline] at hrec
    have hrec2 := (Option.some.injEq _ _).mp hrec
    obtain ⟨h1, h2, h3, h4, h5, h6, h7, h8, h9⟩ := rowGet_standard (parseCSVLine line)
    rw [← hrec2]
    refine ⟨h1, h2, h3, h4, ?_, h6, h7, h8, h9⟩
    dsimp only []
    rw [h5]

/-- Witness for the amended claim C3, at the sample dataset. -/
theorem parseCSV_fields_app :
    (parseCSV exCSV).length = (splitLines (trimJS exCSV)).length - 1 :=
  (parseCSV_fields exCSV (by decide)).1
